import Mathlib

/-!
# Verification of the binary-time watchface core (src/main.c)

Shallow embedding of the time-to-binary encoding pipeline:

* `power`            — the repeated-multiplication exponentiation (main.c `power`);
* `binDigits` / `format_as_binary` — the compare-and-subtract binary formatting
  loop of main.c `format_as_binary`, viewed as the sequence of digit characters
  it stores in the buffer (positions `0 .. end-1`);
* `fabWrites`        — the same loop viewed as the exact trace of buffer writes
  it performs, terminator write included, for buffer-safety reasoning;
* `applyWrites`      — applying such a write trace to a buffer modelled as a
  `List Char`;
* `tm_get_hours`, `tm_get_months`, `display_time` — the field derivations and
  the four formatting calls of main.c `display_time`; the ambient
  `clock_is_24h_style()` device setting is threaded as a `ClockStyle` argument.

The decoder `msbDecode` (standard MSB-first binary-to-integer reading) is
spec-side, used to state round-trip properties.
-/

/-- The number of bits in the hour (`HOUR_BINARY_LENGTH`). -/
def HOUR_BINARY_LENGTH : Nat := 5

/-- The number of bits in the minute (`MINUTE_BINARY_LENGTH`). -/
def MINUTE_BINARY_LENGTH : Nat := 6

/-- The number of bits in the month (`MONTH_BINARY_LENGTH`). -/
def MONTH_BINARY_LENGTH : Nat := 4

/-- The number of bits in the day (`DAY_BINARY_LENGTH`). -/
def DAY_BINARY_LENGTH : Nat := 6

/-- main.c `power`: starts from `p = 1` and multiplies by `base` once per loop
iteration, `expont` times.  The C exponent is an `int`; inside
`format_as_binary` the exponent `end - 1 - i` is always nonnegative, so it is
embedded as a `Nat`. -/
def power (base : Int) : Nat → Int
  | 0 => 1
  | expont + 1 => power base expont * base

/-- The digit characters stored by the loop of main.c `format_as_binary`.
With `n` positions still to fill, the digit written at the current position
`i` has weight `power 2 (end - 1 - i) = power 2 (n - 1)`: if the running
`store` is at least that power a `'1'` is written and the power subtracted,
otherwise a `'0'` is written. -/
def binDigits : Int → Nat → List Char
  | _, 0 => []
  | store, n + 1 =>
    if power 2 n ≤ store then
      '1' :: binDigits (store - power 2 n) n
    else
      '0' :: binDigits store n

/-- main.c `format_as_binary`, as the string content it produces: the buffer
has `length` bytes, the loop fills positions `0 .. length - 2` with binary
digits of `value` and position `length - 1` gets the null terminator, so the
resulting C string is the `length - 1` digit characters. -/
def format_as_binary (length : Nat) (value : Int) : List Char :=
  binDigits value (length - 1)

/-- The exact trace of buffer writes performed by the loop of main.c
`format_as_binary`: `i` is the current loop index, `n` the number of loop
iterations left. -/
def fabWritesAux : Int → Nat → Nat → List (Nat × Char)
  | _, _, 0 => []
  | store, i, n + 1 =>
    if power 2 n ≤ store then
      (i, '1') :: fabWritesAux (store - power 2 n) (i + 1) n
    else
      (i, '0') :: fabWritesAux store (i + 1) n

/-- The full write trace of main.c `format_as_binary` on a `length`-byte
buffer: the loop writes (indices `0 .. length - 2`), then the null terminator
write `buffer[end] = 0` at index `end = length - 1`. -/
def fabWrites (length : Nat) (value : Int) : List (Nat × Char) :=
  fabWritesAux value 0 (length - 1) ++ [(length - 1, Char.ofNat 0)]

/-- Apply a trace of `(index, byte)` writes to a buffer, in order.  Writing
past the end of the list leaves it unchanged, mirroring that such a write
would be out of bounds. -/
def applyWrites (buffer : List Char) (ws : List (Nat × Char)) : List Char :=
  ws.foldl (fun b p => b.set p.1 p.2) buffer

/-- The `clock_is_24h_style()` device setting, as the spec's `ClockStyle`. -/
inductive ClockStyle
  | Hour12
  | Hour24
deriving DecidableEq

/-- The fields of `struct tm` read by the watchface (`tm_hour`, `tm_min`,
`tm_mon`, `tm_mday`), each a C `int`. -/
structure CalendarTm where
  tm_hour : Int
  tm_min : Int
  tm_mon : Int
  tm_mday : Int
deriving DecidableEq

/-- main.c `tm_get_hours`: the hours of the tick_time formatted per the clock
style.  `%` on C ints is truncated division remainder, i.e. `Int.tmod`. -/
def tm_get_hours (style : ClockStyle) (tick_time : CalendarTm) : Int :=
  match style with
  | ClockStyle.Hour24 => tick_time.tm_hour
  | ClockStyle.Hour12 =>
    if Int.tmod tick_time.tm_hour 12 = 0 then 12 else Int.tmod tick_time.tm_hour 12

/-- main.c `tm_get_months`: months converted from 0-based to 1-based. -/
def tm_get_months (tick_time : CalendarTm) : Int :=
  tick_time.tm_mon + 1

/-- The four binary output buffers of main.c (`hour_binary_buffer` etc.). -/
structure DisplayBuffers where
  hour_binary_buffer : List Char
  minute_binary_buffer : List Char
  month_binary_buffer : List Char
  day_binary_buffer : List Char
deriving DecidableEq

/-- main.c `display_time`, as the string contents of the four buffers after
its four `format_as_binary` calls (each called with `sizeof` of its buffer,
i.e. field bit width plus one). -/
def display_time (style : ClockStyle) (tick_time : CalendarTm) : DisplayBuffers :=
  { hour_binary_buffer :=
      format_as_binary (HOUR_BINARY_LENGTH + 1) (tm_get_hours style tick_time)
    minute_binary_buffer :=
      format_as_binary (MINUTE_BINARY_LENGTH + 1) tick_time.tm_min
    month_binary_buffer :=
      format_as_binary (MONTH_BINARY_LENGTH + 1) (tm_get_months tick_time)
    day_binary_buffer :=
      format_as_binary (DAY_BINARY_LENGTH + 1) tick_time.tm_mday }

/-- main.c `display_time` at the level of the static buffers it overwrites:
each of the four `format_as_binary` calls applies its write trace to the
corresponding previous buffer contents. -/
def display_time_buffers (style : ClockStyle) (tick_time : CalendarTm)
    (bufs : DisplayBuffers) : DisplayBuffers :=
  { hour_binary_buffer :=
      applyWrites bufs.hour_binary_buffer
        (fabWrites (HOUR_BINARY_LENGTH + 1) (tm_get_hours style tick_time))
    minute_binary_buffer :=
      applyWrites bufs.minute_binary_buffer
        (fabWrites (MINUTE_BINARY_LENGTH + 1) tick_time.tm_min)
    month_binary_buffer :=
      applyWrites bufs.month_binary_buffer
        (fabWrites (MONTH_BINARY_LENGTH + 1) (tm_get_months tick_time))
    day_binary_buffer :=
      applyWrites bufs.day_binary_buffer
        (fabWrites (DAY_BINARY_LENGTH + 1) tick_time.tm_mday) }

/-- Spec-side decoder: read a digit string as a standard most-significant-bit
first binary number. -/
def msbDecode : List Char → Nat
  | [] => 0
  | c :: cs => (if c = '1' then 1 else 0) * 2 ^ cs.length + msbDecode cs

/-! ## Basic lemmas about the encoder -/

theorem power_two_eq (n : Nat) : power 2 n = 2 ^ n := by
  induction n with
  | zero => rfl
  | succ n ih => rw [power, ih, pow_succ]

theorem binDigits_length (n : Nat) : ∀ s : Int, (binDigits s n).length = n := by
  induction n with
  | zero => intro s; rfl
  | succ n ih =>
    intro s
    unfold binDigits
    split <;> simp [ih]

theorem binDigits_mem (n : Nat) :
    ∀ s : Int, ∀ c ∈ binDigits s n, c = '0' ∨ c = '1' := by
  induction n with
  | zero => intro s c hc; simp [binDigits] at hc
  | succ n ih =>
    intro s c hc
    unfold binDigits at hc
    split at hc <;> rcases List.mem_cons.mp hc with h | h
    · exact Or.inr h
    · exact ih _ c h
    · exact Or.inl h
    · exact ih _ c h

/-- The compare-and-subtract scan is a correct MSB-first binary conversion on
the representable range. -/
theorem msbDecode_binDigits (n : Nat) :
    ∀ s : Int, 0 ≤ s → s < 2 ^ n → (msbDecode (binDigits s n) : Int) = s := by
  induction n with
  | zero =>
    intro s h0 h1
    have hs : s = 0 := by omega
    simp [hs, binDigits, msbDecode]
  | succ n ih =>
    intro s h0 h1
    unfold binDigits
    have hp : power 2 n = 2 ^ n := power_two_eq n
    have hpow : (2 : Int) ^ (n + 1) = 2 ^ n + 2 ^ n := by ring
    by_cases hc : power 2 n ≤ s
    · rw [if_pos hc, hp]
      rw [hp] at hc
      have h0' : (0 : Int) ≤ s - 2 ^ n := by omega
      have h1' : s - 2 ^ n < 2 ^ n := by omega
      have hd := ih (s - 2 ^ n) h0' h1'
      simp only [msbDecode, binDigits_length, if_pos rfl, one_mul]
      push_cast
      omega
    · rw [if_neg hc]
      rw [hp] at hc
      have hd := ih s h0 (by omega)
      simp [msbDecode, binDigits_length]
      omega

/-- On values at or above `2 ^ n` the scan emits only ones: the remaining
store always still exceeds the next power of two. -/
theorem binDigits_ones (n : Nat) :
    ∀ s : Int, 2 ^ n ≤ s → binDigits s n = List.replicate n '1' := by
  induction n with
  | zero => intro s _; rfl
  | succ n ih =>
    intro s h
    have hp : power 2 n = 2 ^ n := power_two_eq n
    have hpow : (2 : Int) ^ (n + 1) = 2 ^ n + 2 ^ n := by ring
    have hple : (0 : Int) < 2 ^ n := by positivity
    unfold binDigits
    rw [if_pos (by rw [hp]; omega)]
    rw [List.replicate_succ]
    congr 1
    exact ih (s - power 2 n) (by rw [hp]; omega)

/-- On nonpositive values the scan emits only zeros: the store never reaches
any positive power of two and is never modified. -/
theorem binDigits_zeros (n : Nat) :
    ∀ s : Int, s ≤ 0 → binDigits s n = List.replicate n '0' := by
  induction n with
  | zero => intro s _; rfl
  | succ n ih =>
    intro s h
    have hple : (0 : Int) < 2 ^ n := by positivity
    unfold binDigits
    rw [if_neg (by rw [power_two_eq]; omega)]
    rw [List.replicate_succ]
    congr 1
    exact ih s h

/-- The maximum representable value encodes as all ones. -/
theorem binDigits_pow_sub_one (n : Nat) :
    binDigits ((2 : Int) ^ n - 1) n = List.replicate n '1' := by
  induction n with
  | zero => rfl
  | succ n ih =>
    have hp : power 2 n = 2 ^ n := power_two_eq n
    have hple : (0 : Int) < 2 ^ n := by positivity
    have hpow : (2 : Int) ^ (n + 1) = 2 ^ n + 2 ^ n := by ring
    unfold binDigits
    rw [if_pos (by rw [hp]; omega)]
    rw [List.replicate_succ]
    congr 1
    rw [hp, show (2 : Int) ^ (n + 1) - 1 - 2 ^ n = 2 ^ n - 1 by omega]
    exact ih

/-- Decoding the all-ones string. -/
theorem msbDecode_replicate_one (n : Nat) :
    msbDecode (List.replicate n '1') + 1 = 2 ^ n := by
  induction n with
  | zero => rfl
  | succ n ih =>
    simp [List.replicate_succ, msbDecode, pow_succ]
    omega

/-- Decoding the all-zeros string. -/
theorem msbDecode_replicate_zero (n : Nat) :
    msbDecode (List.replicate n '0') = 0 := by
  induction n with
  | zero => rfl
  | succ n ih => simp [List.replicate_succ, msbDecode, ih]

/-! ## Lemmas about the write trace -/

/-- The loop writes exactly the digit characters, in order. -/
theorem fabWritesAux_map_snd (n : Nat) :
    ∀ (s : Int) (i : Nat), (fabWritesAux s i n).map Prod.snd = binDigits s n := by
  induction n with
  | zero => intro s i; rfl
  | succ n ih =>
    intro s i
    unfold fabWritesAux binDigits
    split <;> simp [ih]

/-- Every index written by the loop lies in `[i, i + n)`. -/
theorem fabWritesAux_fst_bounds (n : Nat) :
    ∀ (s : Int) (i : Nat), ∀ p ∈ fabWritesAux s i n, i ≤ p.1 ∧ p.1 < i + n := by
  induction n with
  | zero => intro s i p hp; simp [fabWritesAux] at hp
  | succ n ih =>
    intro s i p hp
    unfold fabWritesAux at hp
    split at hp <;> rcases List.mem_cons.mp hp with h | h
    · subst h; omega
    · have := ih _ _ p h; omega
    · subst h; omega
    · have := ih _ _ p h; omega

/-- The byte most recently written to index `i` by a trace, if any. -/
def lastW (i : Nat) : List (Nat × Char) → Option Char
  | [] => none
  | p :: rest =>
    match lastW i rest with
    | some c => some c
    | none => if p.1 = i then some p.2 else none

theorem applyWrites_length (ws : List (Nat × Char)) :
    ∀ buffer : List Char, (applyWrites buffer ws).length = buffer.length := by
  induction ws with
  | nil => intro buffer; rfl
  | cons p rest ih =>
    intro buffer
    show (applyWrites (buffer.set p.1 p.2) rest).length = buffer.length
    rw [ih, List.length_set]

/-- Pointwise description of a buffer after a write trace: each position holds
the byte most recently written there, or its previous content if the trace
never touched it. -/
theorem applyWrites_getElem (ws : List (Nat × Char)) :
    ∀ (buffer : List Char) (i : Nat),
      (applyWrites buffer ws)[i]? =
        match lastW i ws with
        | some c => if i < buffer.length then some c else none
        | none => buffer[i]? := by
  induction ws with
  | nil => intro buffer i; rfl
  | cons p rest ih =>
    intro buffer i
    show (applyWrites (buffer.set p.1 p.2) rest)[i]? = _
    rw [ih]
    cases hl : lastW i rest with
    | some c =>
      simp only [lastW, hl, List.length_set]
    | none =>
      simp only [lastW, hl, List.getElem?_set]
      by_cases hpi : p.1 = i
      · simp [hpi]
      · simp [hpi]

/-- Re-running a write trace over its own result changes nothing. -/
theorem applyWrites_self (ws : List (Nat × Char)) (buffer : List Char) :
    applyWrites (applyWrites buffer ws) ws = applyWrites buffer ws := by
  apply List.ext_getElem?
  intro i
  rw [applyWrites_getElem]
  cases hl : lastW i ws with
  | some c =>
    rw [applyWrites_getElem, hl, applyWrites_length]
  | none => rfl

/-! ## The claims -/

/-- C1: for every integer `v` with `0 ≤ v < 2^w` and every positive width `w`,
`format_as_binary` called with a buffer of length `w + 1` produces a string of
exactly `w` characters, each `'0'` or `'1'`, most-significant bit first, which
read as a standard MSB-first binary number equals `v`. -/
theorem encoder_correct (w : Nat) (v : Int) (hw : 1 ≤ w) (h0 : 0 ≤ v)
    (h1 : v < 2 ^ w) :
    (format_as_binary (w + 1) v).length = w ∧
    (∀ c ∈ format_as_binary (w + 1) v, c = '0' ∨ c = '1') ∧
    (msbDecode (format_as_binary (w + 1) v) : Int) = v := by
  have hfab : format_as_binary (w + 1) v = binDigits v w := by
    unfold format_as_binary
    rw [Nat.add_sub_cancel]
  rw [hfab]
  exact ⟨binDigits_length w v, binDigits_mem w v, msbDecode_binDigits w v h0 h1⟩

theorem encoder_correct_witness :
    (format_as_binary (3 + 1) 5).length = 3 ∧
    (∀ c ∈ format_as_binary (3 + 1) 5, c = '0' ∨ c = '1') ∧
    (msbDecode (format_as_binary (3 + 1) 5) : Int) = 5 :=
  encoder_correct 3 5 (by decide) (by decide) (by decide)

/-- C2 counterexample: at `w = 1`, `v = 2` the encoder does not truncate
modularly: `encode(2, 1)` is `"1"` while `2 mod 2^1 = 0` encodes as `"0"`,
and the decoded value `1` differs from `2 mod 2^1 = 0`. -/
theorem encoder_not_modular :
    format_as_binary (1 + 1) 2 ≠ format_as_binary (1 + 1) (2 % 2 ^ 1) ∧
    (msbDecode (format_as_binary (1 + 1) 2) : Int) ≠ 2 % 2 ^ 1 := by
  decide

/-- C2 amended: for every `v ≥ 2^w` and positive width `w`, `encode(v, w)`
equals `encode(2^w - 1, w)`, and decoding it recovers `2^w - 1`: out-of-range
values saturate at the maximum representable value rather than being reduced
modulo `2^w`. -/
theorem encoder_saturating_truncation (w : Nat) (v : Int) (hw : 1 ≤ w)
    (hv : 2 ^ w ≤ v) :
    format_as_binary (w + 1) v = format_as_binary (w + 1) (2 ^ w - 1) ∧
    (msbDecode (format_as_binary (w + 1) v) : Int) = 2 ^ w - 1 := by
  have hfab : ∀ x : Int, format_as_binary (w + 1) x = binDigits x w := by
    intro x
    unfold format_as_binary
    rw [Nat.add_sub_cancel]
  rw [hfab, hfab, binDigits_ones w v hv, binDigits_pow_sub_one w]
  refine ⟨rfl, ?_⟩
  have hm := msbDecode_replicate_one w
  have h2 : ((2 ^ w : Nat) : Int) = 2 ^ w := by push_cast; rfl
  omega

theorem encoder_saturating_truncation_witness :
    format_as_binary (1 + 1) 2 = format_as_binary (1 + 1) (2 ^ 1 - 1) ∧
    (msbDecode (format_as_binary (1 + 1) 2) : Int) = 2 ^ 1 - 1 :=
  encoder_saturating_truncation 1 2 (by decide) (by decide)

/-- C3: under `Hour24` the displayed hour is `time.hour` unchanged; under
`Hour12`, with `h = time.hour mod 12`, the displayed hour is 12 when `h = 0`
and `h` otherwise; in particular hours 0 and 12 display as 12 under `Hour12`,
hour 13 displays as 1 under `Hour12`, and hour 23 displays as 23 under
`Hour24`. -/
theorem hour_derivation (t : CalendarTm) (h0 : 0 ≤ t.tm_hour)
    (h1 : t.tm_hour < 24) :
    tm_get_hours ClockStyle.Hour24 t = t.tm_hour ∧
    tm_get_hours ClockStyle.Hour12 t =
      (if t.tm_hour % 12 = 0 then 12 else t.tm_hour % 12) ∧
    msbDecode (display_time ClockStyle.Hour12 ⟨0, 0, 0, 1⟩).hour_binary_buffer = 12 ∧
    msbDecode (display_time ClockStyle.Hour12 ⟨12, 0, 0, 1⟩).hour_binary_buffer = 12 ∧
    msbDecode (display_time ClockStyle.Hour12 ⟨13, 0, 0, 1⟩).hour_binary_buffer = 1 ∧
    msbDecode (display_time ClockStyle.Hour24 ⟨23, 0, 0, 1⟩).hour_binary_buffer = 23 := by
  refine ⟨rfl, ?_, by decide, by decide, by decide, by decide⟩
  show (if Int.tmod t.tm_hour 12 = 0 then 12 else Int.tmod t.tm_hour 12) = _
  rw [Int.tmod_eq_emod h0 (by norm_num)]

theorem hour_derivation_witness :
    tm_get_hours ClockStyle.Hour24 ⟨13, 0, 0, 1⟩ = (13 : Int) ∧
    tm_get_hours ClockStyle.Hour12 ⟨13, 0, 0, 1⟩ =
      (if (13 : Int) % 12 = 0 then 12 else (13 : Int) % 12) ∧
    msbDecode (display_time ClockStyle.Hour12 ⟨0, 0, 0, 1⟩).hour_binary_buffer = 12 ∧
    msbDecode (display_time ClockStyle.Hour12 ⟨12, 0, 0, 1⟩).hour_binary_buffer = 12 ∧
    msbDecode (display_time ClockStyle.Hour12 ⟨13, 0, 0, 1⟩).hour_binary_buffer = 1 ∧
    msbDecode (display_time ClockStyle.Hour24 ⟨23, 0, 0, 1⟩).hour_binary_buffer = 23 :=
  hour_derivation ⟨13, 0, 0, 1⟩ (by decide) (by decide)

/-- C4: for every `CalendarTm` with month in range, the displayed month field
decodes to `time.month + 1` (0-based converted to 1-based) under either clock
style; hence month 0 decodes to 1 and month 11 decodes to 12. -/
theorem month_derivation (style : ClockStyle) (t : CalendarTm)
    (h0 : 0 ≤ t.tm_mon) (h1 : t.tm_mon < 12) :
    (msbDecode (display_time style t).month_binary_buffer : Int) = t.tm_mon + 1 := by
  show (msbDecode (binDigits (t.tm_mon + 1) 4) : Int) = t.tm_mon + 1
  have h16 : (2 : Int) ^ 4 = 16 := by norm_num
  exact msbDecode_binDigits 4 (t.tm_mon + 1) (by omega) (by omega)

theorem month_derivation_witness :
    (msbDecode (display_time ClockStyle.Hour24 ⟨0, 0, 11, 31⟩).month_binary_buffer : Int) =
      (11 : Int) + 1 :=
  month_derivation ClockStyle.Hour24 ⟨0, 0, 11, 31⟩ (by decide) (by decide)

/-- C5: minute and day are passed to the encoder unchanged, the fixed field
widths are hour = 5, minute = 6, month = 4, day = 6 bits, and for the maximal
input `{hour 23, minute 59, month 11, day 31}` under `Hour24` the four fields
decode to 23, 59, 12 and 31 (no truncation at the chosen widths). -/
theorem field_widths_and_passthrough (style : ClockStyle) (t : CalendarTm)
    (hm0 : 0 ≤ t.tm_min) (hm1 : t.tm_min < 64)
    (hd0 : 0 ≤ t.tm_mday) (hd1 : t.tm_mday < 64) :
    (display_time style t).hour_binary_buffer.length = 5 ∧
    (display_time style t).minute_binary_buffer.length = 6 ∧
    (display_time style t).month_binary_buffer.length = 4 ∧
    (display_time style t).day_binary_buffer.length = 6 ∧
    (msbDecode (display_time style t).minute_binary_buffer : Int) = t.tm_min ∧
    (msbDecode (display_time style t).day_binary_buffer : Int) = t.tm_mday ∧
    msbDecode (display_time ClockStyle.Hour24 ⟨23, 59, 11, 31⟩).hour_binary_buffer = 23 ∧
    msbDecode (display_time ClockStyle.Hour24 ⟨23, 59, 11, 31⟩).minute_binary_buffer = 59 ∧
    msbDecode (display_time ClockStyle.Hour24 ⟨23, 59, 11, 31⟩).month_binary_buffer = 12 ∧
    msbDecode (display_time ClockStyle.Hour24 ⟨23, 59, 11, 31⟩).day_binary_buffer = 31 := by
  have h64 : (2 : Int) ^ 6 = 64 := by norm_num
  refine ⟨binDigits_length 5 _, binDigits_length 6 _, binDigits_length 4 _,
    binDigits_length 6 _, ?_, ?_, by decide, by decide, by decide, by decide⟩
  · exact msbDecode_binDigits 6 t.tm_min hm0 (by omega)
  · exact msbDecode_binDigits 6 t.tm_mday hd0 (by omega)

theorem field_widths_and_passthrough_witness :
    (display_time ClockStyle.Hour24 ⟨23, 59, 11, 31⟩).hour_binary_buffer.length = 5 ∧
    (display_time ClockStyle.Hour24 ⟨23, 59, 11, 31⟩).minute_binary_buffer.length = 6 ∧
    (display_time ClockStyle.Hour24 ⟨23, 59, 11, 31⟩).month_binary_buffer.length = 4 ∧
    (display_time ClockStyle.Hour24 ⟨23, 59, 11, 31⟩).day_binary_buffer.length = 6 ∧
    (msbDecode (display_time ClockStyle.Hour24 ⟨23, 59, 11, 31⟩).minute_binary_buffer : Int) =
      (59 : Int) ∧
    (msbDecode (display_time ClockStyle.Hour24 ⟨23, 59, 11, 31⟩).day_binary_buffer : Int) =
      (31 : Int) ∧
    msbDecode (display_time ClockStyle.Hour24 ⟨23, 59, 11, 31⟩).hour_binary_buffer = 23 ∧
    msbDecode (display_time ClockStyle.Hour24 ⟨23, 59, 11, 31⟩).minute_binary_buffer = 59 ∧
    msbDecode (display_time ClockStyle.Hour24 ⟨23, 59, 11, 31⟩).month_binary_buffer = 12 ∧
    msbDecode (display_time ClockStyle.Hour24 ⟨23, 59, 11, 31⟩).day_binary_buffer = 31 :=
  field_widths_and_passthrough ClockStyle.Hour24 ⟨23, 59, 11, 31⟩
    (by decide) (by decide) (by decide) (by decide)

/-- C6: for every input value and every positive width `w`, the write trace of
`format_as_binary` on a `(w+1)`-byte buffer touches only indices `0 .. w`,
writes the null terminator at index `w` and nothing else there, and hence
never writes past the end of the buffer. -/
theorem format_as_binary_buffer_safety (v : Int) (w : Nat) (hw : 1 ≤ w) :
    (∀ p ∈ fabWrites (w + 1) v, p.1 ≤ w) ∧
    (∀ p ∈ fabWrites (w + 1) v, p.1 = w → p.2 = Char.ofNat 0) ∧
    (w, Char.ofNat 0) ∈ fabWrites (w + 1) v := by
  have hww : w + 1 - 1 = w := by omega
  unfold fabWrites
  rw [hww]
  refine ⟨?_, ?_, List.mem_append_right _ (List.mem_singleton.mpr rfl)⟩
  · intro p hp
    rcases List.mem_append.mp hp with h | h
    · have := fabWritesAux_fst_bounds w v 0 p h
      omega
    · rw [List.mem_singleton] at h
      rw [h]
  · intro p hp hpw
    rcases List.mem_append.mp hp with h | h
    · have := fabWritesAux_fst_bounds w v 0 p h
      omega
    · rw [List.mem_singleton] at h
      rw [h]

theorem format_as_binary_buffer_safety_witness :
    (∀ p ∈ fabWrites (3 + 1) 5, p.1 ≤ 3) ∧
    (∀ p ∈ fabWrites (3 + 1) 5, p.1 = 3 → p.2 = Char.ofNat 0) ∧
    (3, Char.ofNat 0) ∈ fabWrites (3 + 1) 5 :=
  format_as_binary_buffer_safety 5 3 (by decide)

/-- C7: `encode(0, w)` is a string of exactly `w` zero characters, for every
width `w ≥ 1`. -/
theorem encoder_zero_all_zeros (w : Nat) (hw : 1 ≤ w) :
    format_as_binary (w + 1) 0 = List.replicate w '0' := by
  show binDigits 0 (w + 1 - 1) = _
  rw [Nat.add_sub_cancel]
  exact binDigits_zeros w 0 le_rfl

theorem encoder_zero_all_zeros_witness :
    format_as_binary (6 + 1) 0 = List.replicate 6 '0' :=
  encoder_zero_all_zeros 6 (by decide)

/-- C8: the formatting pass is deterministic and free of hidden state drift:
running `display_time`'s four `format_as_binary` calls a second time with
identical `CalendarTm` and `ClockStyle` inputs leaves the contents of all four
output buffers bit-identical. -/
theorem display_time_idempotent (style : ClockStyle) (t : CalendarTm)
    (bufs : DisplayBuffers) :
    display_time_buffers style t (display_time_buffers style t bufs) =
      display_time_buffers style t bufs := by
  simp only [display_time_buffers, applyWrites_self]

/-- C9: for every width `w ≥ 1` and every value `v ≥ 2^w`, `format_as_binary`
fills the buffer with the all-ones string `'1' * w`, which decodes to
`2^w - 1`: out-of-range values saturate at the maximum representable value. -/
theorem encoder_saturates_all_ones (w : Nat) (v : Int) (hw : 1 ≤ w)
    (hv : 2 ^ w ≤ v) :
    format_as_binary (w + 1) v = List.replicate w '1' ∧
    (msbDecode (format_as_binary (w + 1) v) : Int) = 2 ^ w - 1 := by
  have hfab : format_as_binary (w + 1) v = binDigits v w := by
    unfold format_as_binary
    rw [Nat.add_sub_cancel]
  rw [hfab, binDigits_ones w v hv]
  refine ⟨rfl, ?_⟩
  have hm := msbDecode_replicate_one w
  have h2 : ((2 ^ w : Nat) : Int) = 2 ^ w := by push_cast; rfl
  omega

theorem encoder_saturates_all_ones_witness :
    format_as_binary (4 + 1) 99 = List.replicate 4 '1' ∧
    (msbDecode (format_as_binary (4 + 1) 99) : Int) = 2 ^ 4 - 1 :=
  encoder_saturates_all_ones 4 99 (by decide) (by decide)

/-- C10: for every width `w ≥ 1` and every negative value `v < 0`,
`format_as_binary` fills the buffer with the all-zeros string `'0' * w`: the
negative store never reaches any positive power of two, every position
receives `'0'`, and the call terminates normally with a well-formed
`w`-character string. -/
theorem encoder_negative_all_zeros (w : Nat) (v : Int) (hw : 1 ≤ w)
    (hv : v < 0) :
    format_as_binary (w + 1) v = List.replicate w '0' := by
  show binDigits v (w + 1 - 1) = _
  rw [Nat.add_sub_cancel]
  exact binDigits_zeros w v (by omega)

theorem encoder_negative_all_zeros_witness :
    format_as_binary (3 + 1) (-7) = List.replicate 3 '0' :=
  encoder_negative_all_zeros 3 (-7) (by decide) (by decide)



